import Mathlib

/-!
Verification development for the `summary` node-status plugin
(`summary.py`): peer-availability estimator, money formatter,
balance-bar renderer and the report aggregation loop, shallowly embedded
in Lean.  Millisatoshi amounts are modelled as `ℤ` (Python integers),
float arithmetic as exact `ℚ` arithmetic, the mutable `peerstate` dict
as a function `String → Option PeerState`, and fallible code (division
by zero, `log10` of a non-positive number) as `Except`/`Option` results.
-/

namespace SummaryPlugin

/-- The seven-symbol drawing alphabet (`Charset` namedtuple in the source). -/
structure Charset where
  double_left : Char
  left : Char
  bar : Char
  mid : Char
  right : Char
  double_right : Char
  empty : Char
deriving DecidableEq

/-- The UTF-8 charset chosen when pyln supports passthrough (`have_utf8`). -/
def draw : Charset := ⟨'╟', '├', '─', '┼', '┤', '╢', '║'⟩

/-- A run of `n` spaces. -/
def spaces (n : ℕ) : String := String.mk (List.replicate n ' ')

/-- Character `c` repeated `n` times, as Python `c * n` on a one-character string. -/
def rep (c : Char) (n : ℕ) : String := String.mk (List.replicate n c)

/-- Python `"\x7b:>w\x7d".format(s)`: right-justify `s` in a `w`-wide field. -/
def padL (w : ℕ) (s : String) : String := spaces (w - s.length) ++ s

/-- Python `"\x7b:w\x7d".format(s)`: left-justify `s` in a `w`-wide field. -/
def padR (w : ℕ) (s : String) : String := s ++ spaces (w - s.length)

/-- Whether `a` occurs at the start of `b` (helper for the substring test). -/
def leadsWith : List Char → List Char → Bool
  | [], _ => true
  | _ :: _, [] => false
  | a :: as, b :: bs => a == b && leadsWith as bs

/-- Whether `needle` occurs as a contiguous run inside `hay`
(Python `needle in hay` on strings). -/
def containsSub : List Char → List Char → Bool
  | needle, [] => needle.isEmpty
  | needle, b :: bs => leadsWith needle (b :: bs) || containsSub needle bs

/-- The exclusion test of the report operation:
`c['short_channel_id'] in exclude` on strings. -/
def excludedB (ex scid : String) : Bool := containsSub scid.toList ex.toList

/-- One channel as returned by `listpeers` (the fields `summary` reads). -/
structure ChannelInfo where
  state : String
  short_channel_id : String
  total_msat : ℤ
  to_us_msat : ℤ
  our_reserve_msat : ℤ
  their_reserve_msat : ℤ
  priv : Bool
deriving DecidableEq

/-- One peer as returned by `listpeers`. -/
structure Peer where
  id : String
  connected : Bool
  channels : List ChannelInfo
deriving DecidableEq

/-- One entry of the global `peerstate` dict. -/
structure PeerState where
  connected : Bool
  last_seen : Option ℕ
  availability : ℚ
deriving DecidableEq

/-- The global `peerstate` dict, as a partial map from peer id. -/
abbrev PState : Type := String → Option PeerState

/-- The empty `peerstate`. -/
def emptyPS : PState := fun _ => none

/-- Store an entry under a peer id (dict assignment). -/
def setPeer (ps : PState) (pid : String) (st : PeerState) : PState :=
  fun q => if q = pid then some st else ps q

/-- Function `addpeer`: create a `peerstate` entry for `p` if absent, seeding
`availability` with 1.0 when connected and 0.0 otherwise. -/
def addpeer (now : ℕ) (p : Peer) (ps : PState) : PState :=
  match ps p.id with
  | some _ => ps
  | none =>
      setPeer ps p.id
        ⟨p.connected, if p.connected then some now else none,
         if p.connected then 1 else 0⟩

/-- Constant `interval = 5 * 60`: the sampling period in seconds. -/
def interval : ℕ := 5 * 60

/-- Constant `window = 3 * 24 * 60 * 60`: the 72-hour availability window. -/
def window : ℕ := 3 * 24 * 60 * 60

/-- Value `leadwin = max(min(window, count * interval), interval)`. -/
def leadwin (count : ℕ) : ℕ := max (min window (count * interval)) interval

/-- Value `samples = leadwin / interval` (exact rational for float division). -/
def samples (count : ℕ) : ℚ := (leadwin count : ℚ) / (interval : ℚ)

/-- Value `alpha = 1.0 / samples`. -/
def alpha (count : ℕ) : ℚ := 1 / samples count

/-- Value `beta = 1.0 - alpha`. -/
def beta (count : ℕ) : ℚ := 1 - alpha count

/-- Body of the sampling loop of `PeerThread.run` for a single listed peer:
ensure the entry exists, then blend the instantaneous sample into the
smoothed availability with the tick's `alpha`/`beta`. -/
def tickPeer (count now : ℕ) (ps : PState) (p : Peer) : PState :=
  let ps1 := addpeer now p ps
  match ps1 p.id with
  | none => ps1
  | some st =>
      if p.connected then
        setPeer ps1 p.id
          ⟨true, some now, 1 * alpha count + st.availability * beta count⟩
      else
        setPeer ps1 p.id
          ⟨false, st.last_seen, 0 * alpha count + st.availability * beta count⟩

/-- One sampling tick of `PeerThread.run` over the peer list returned by
`listpeers`, at global tick counter `count`. -/
def tick (count now : ℕ) (peers : List Peer) (ps : PState) : PState :=
  peers.foldl (tickPeer count now) ps

/-- The sampling loop of `PeerThread.run`: the global counter is
incremented before each tick; `obs` lists the peers observed at each
successive tick. -/
def runTicks : ℕ → List (List Peer) → PState → PState
  | _, [], ps => ps
  | count, obs :: rest, ps => runTicks (count + 1) rest (tick (count + 1) 0 obs ps)

/-- The availability that a tick (or report) effectively uses for `p`:
the stored value when an entry exists, else the seed `addpeer` writes. -/
def prevOrSeed (ps : PState) (p : Peer) : ℚ :=
  match ps p.id with
  | some st => st.availability
  | none => if p.connected then 1 else 0

/-- The `last_seen` value of `p` before a tick (`none` when absent). -/
def prevLS (ps : PState) (p : Peer) : Option ℕ :=
  match ps p.id with
  | some st => st.last_seen
  | none => none

/-- All stored availabilities lie in the unit interval. -/
def AvailBounded (ps : PState) : Prop :=
  ∀ pid st, ps pid = some st → 0 ≤ st.availability ∧ st.availability ≤ 1

/-- Round `x` to the nearest multiple of `m`, ties to even
(Python `round(x, -e)` on an int, with `m = 10 ** e`). -/
def roundHalfEvenNat (x m : ℕ) : ℕ :=
  let q := x / m
  let r := x % m
  if 2 * r < m then q * m
  else if m < 2 * r then (q + 1) * m
  else if q % 2 = 0 then q * m else (q + 1) * m

/-- Python `round_to_n = lambda x, n: round(x, -int(floor(log10(x))) + (n - 1))`:
round a positive integer to `n` significant digits
(`Nat.log 10 x = floor(log10 x)` for `x ≥ 1`). -/
def round_to_n (x n : ℕ) : ℕ :=
  let d := Nat.log 10 x + 1
  if d ≤ n then x else roundHalfEvenNat x (10 ^ (d - n))

/-- The `while True` loop of `msat_to_approx_str`, with explicit fuel.
`fmt a` abstracts the step that renders the rounded amount `a` in the
three units with `%g` and keeps the shortest string (binary-float
`%g` text is not modelled; the loop never inspects the text beyond
length and equality, so it is a parameter). `none` means the fuel ran
out before the loop returned. -/
def approx_str_loop (fmt : ℕ → String) (msat : ℕ) :
    ℕ → ℕ → Option String → Option String
  | 0, _, _ => none
  | fuel + 1, digits, result =>
      let t := fmt (round_to_n msat digits)
      match result with
      | none => approx_str_loop fmt msat fuel (digits + 1) (some t)
      | some r =>
          if t = r then some r
          else if t.length ≤ r.length then
            approx_str_loop fmt msat fuel (digits + 1) (some t)
          else some r

/-- Function `msat_to_approx_str(msat, digits=3)`, run with enough fuel. -/
def msat_to_approx_str (fmt : ℕ → String) (msat : ℕ) : Option String :=
  approx_str_loop fmt msat (Nat.log 10 msat + 3) 3 none

/-- The two ways the rendering path raises: `ValueError` from
`log10` of a non-positive amount inside `round_to_n`, and
`ZeroDivisionError` from `/ biggest` in the bar-length computation. -/
inductive RenderErr where
  | logDomain
  | divByZero
deriving DecidableEq

/-- Python `round` on a float value, modelled exactly on `ℚ`:
round half to even. -/
def rhe (q : ℚ) : ℤ :=
  if q - ⌊q⌋ < 1 / 2 then ⌊q⌋
  else if 1 / 2 < q - ⌊q⌋ then ⌊q⌋ + 1
  else if ⌊q⌋ % 2 = 0 then ⌊q⌋ else ⌊q⌋ + 1

/-- The three pieces of a rendered bar: left segment, midpoint glyph,
right segment. -/
structure BarParts where
  left : String
  mid : Char
  right : String
deriving DecidableEq

/-- The per-channel bar layout of `summary` (lines 231-254): bar lengths
`int(round(side / biggest * 23))`, blank/capped segments and the midpoint
glyph selection.  `biggest = 0` is the `ZeroDivisionError` case. -/
def renderBar (biggest to_us to_them : ℤ) : Except RenderErr BarParts :=
  if biggest = 0 then .error .divByZero
  else
    let our_len := rhe ((to_us : ℚ) / (biggest : ℚ) * 23)
    let their_len := rhe ((to_them : ℚ) / (biggest : ℚ) * 23)
    let lm :=
      if our_len = 0 then (padL 23 "", draw.double_left)
      else
        (padL 23 (String.singleton draw.left ++ rep draw.bar (our_len - 1).toNat),
         draw.mid)
    let rm :=
      if their_len = 0 then
        (padR 23 "", if our_len = 0 then draw.empty else draw.double_right)
      else
        (padR 23 (rep draw.bar (their_len - 1).toNat ++ String.singleton draw.right),
         lm.2)
    .ok ⟨lm.1, rm.2, rm.1⟩

/-- The left projection of a rendered bar (blank on error). -/
def barLeft (e : Except RenderErr BarParts) : String :=
  match e with
  | .ok bp => bp.left
  | .error _ => ""

/-- The midpoint projection of a rendered bar (space on error). -/
def barMid (e : Except RenderErr BarParts) : Char :=
  match e with
  | .ok bp => bp.mid
  | .error _ => ' '

/-- The right projection of a rendered bar (blank on error). -/
def barRight (e : Except RenderErr BarParts) : String :=
  match e with
  | .ok bp => bp.right
  | .error _ => ""

/-- Transcription of the specification's own wording of the per-channel
layout, as a function of the two bar lengths, to be compared with
`renderBar`: blank left segment and double-left-cap when `ownedLen = 0`;
blank right segment and double-right-cap when `counterpartyLen = 0`
(empty-glyph when both are zero); otherwise capped runs of bar-fill
justified in 23-wide fields around the plain midpoint. -/
def specBarParts (ownedLen counterLen : ℤ) : BarParts where
  left :=
    if ownedLen = 0 then padL 23 ""
    else padL 23 (String.singleton draw.left ++ rep draw.bar (ownedLen - 1).toNat)
  mid :=
    if ownedLen = 0 then (if counterLen = 0 then draw.empty else draw.double_left)
    else (if counterLen = 0 then draw.double_right else draw.mid)
  right :=
    if counterLen = 0 then padR 23 ""
    else padR 23 (rep draw.bar (counterLen - 1).toNat ++ String.singleton draw.right)

/-- Value `to_us`: usable owned balance after reserve, floored at zero. -/
def chanToUs (c : ChannelInfo) : ℤ :=
  if c.our_reserve_msat < c.to_us_msat then c.to_us_msat - c.our_reserve_msat
  else 0

/-- Value `to_them`: usable counterparty balance after reserve, floored at zero. -/
def chanToThem (c : ChannelInfo) : ℤ :=
  let to_them := c.total_msat - c.to_us_msat
  if c.their_reserve_msat < to_them then to_them - c.their_reserve_msat
  else 0

/-- One element of the `chans` list `summary` builds
(the 8-tuple appended at lines 204-212). -/
structure ChanEntry where
  total : ℤ
  to_us : ℤ
  to_them : ℤ
  peer_id : String
  priv : Bool
  connected : Bool
  scid : String
  availability : ℚ
deriving DecidableEq

/-- Build the `chans` tuple for channel `c` of peer `p`, with the peer's
current smoothed availability `v`. -/
def chanEntryOf (p : Peer) (v : ℚ) (c : ChannelInfo) : ChanEntry :=
  ⟨c.total_msat, chanToUs c, chanToThem c, p.id, c.priv, p.connected,
   c.short_channel_id, v⟩

/-- A channel counts as active when fully negotiated. -/
def isActive (c : ChannelInfo) : Bool := c.state == "CHANNELD_NORMAL"

/-- A channel contributes to the report when active and not excluded. -/
def keptFilter (ex : String) (c : ChannelInfo) : Bool :=
  isActive c && !excludedB ex c.short_channel_id

/-- The fields of the report touched by the peer/channel loop. -/
structure Reply where
  avail_out : ℤ
  avail_in : ℤ
  num_channels : ℕ
  num_connected : ℕ
  num_gossipers : ℕ
  chans : List ChanEntry
deriving DecidableEq

/-- The report before the loop: all counters zero, no channels. -/
def initReply : Reply := ⟨0, 0, 0, 0, 0, []⟩

/-- Pointwise combination of two partial reports. -/
def Reply.merge (r s : Reply) : Reply :=
  ⟨r.avail_out + s.avail_out, r.avail_in + s.avail_in,
   r.num_channels + s.num_channels, r.num_connected + s.num_connected,
   r.num_gossipers + s.num_gossipers, r.chans ++ s.chans⟩

/-- Body of the inner `for c in p['channels']` loop of `summary`
(lines 182-212): skip non-normal states, mark the peer as having an
active channel, skip excluded short-channel-ids, bump `num_connected`
for connected peers, accumulate balances and append the channel tuple. -/
def chanStep (ex : String) (p : Peer) (v : ℚ) (st : Bool × Reply)
    (c : ChannelInfo) : Bool × Reply :=
  if isActive c then
    if excludedB ex c.short_channel_id then (true, st.2)
    else
      let r1 :=
        if p.connected then { st.2 with num_connected := st.2.num_connected + 1 }
        else st.2
      (true,
       { r1 with
         avail_out := r1.avail_out + chanToUs c
         avail_in := r1.avail_in + chanToThem c
         num_channels := r1.num_channels + 1
         chans := r1.chans ++ [chanEntryOf p v c] })
  else st

/-- Read `peerstate[pid]['availability']` (0 as unreachable default). -/
def availRead (ps : PState) (pid : String) : ℚ :=
  match ps pid with
  | some st => st.availability
  | none => 0

/-- Body of the outer `for p in peers['peers']` loop of `summary`
(lines 178-215): `addpeer`, the channel loop, and the gossip-only count
for connected peers without an active channel. -/
def peerStep (ex : String) (now : ℕ) (st : PState × Reply) (p : Peer) :
    PState × Reply :=
  let ps1 := addpeer now p st.1
  let v := availRead ps1 p.id
  let folded := p.channels.foldl (chanStep ex p v) (false, st.2)
  let r2 :=
    if !folded.1 && p.connected then
      { folded.2 with num_gossipers := folded.2.num_gossipers + 1 }
    else folded.2
  (ps1, r2)

/-- The aggregation part of the `summary` RPC method: the peer/channel
loop over the `listpeers` result, starting from zeroed counters. -/
def summary (ex : String) (now : ℕ) (peers : List Peer) (ps : PState) : Reply :=
  (peers.foldl (peerStep ex now) (ps, initReply)).2

/-- The header line built by `append_header` from the formatted biggest
amount. -/
def headerLine (short_str : String) : String :=
  String.singleton draw.left ++ padR 13 short_str ++ "OUT/OURS "
    ++ String.singleton draw.mid ++ " IN/THEIRS" ++ padL 12 short_str
    ++ String.singleton draw.right ++ " SCID           FLAG AVAIL ALIAS"

/-- The two-character `[PO]` status flags of a rendered line. -/
def flagsOf (c : ChanEntry) : String :=
  (if c.priv then ("P") else ("_")) ++ (if c.connected then ("_") else ("O"))

/-- One full per-channel line (lines 254-279): bar, short-channel-id,
flags, availability percentage, then alias when known else the first 32
characters of the peer id (`aliasOf` abstracts the `listnodes` lookup). -/
def lineOf (aliasOf : String → Option String) (c : ChanEntry) (bp : BarParts) :
    String :=
  bp.left ++ String.singleton bp.mid ++ bp.right
    ++ " " ++ padR 14 c.scid ++ " "
    ++ "[" ++ flagsOf c ++ "] "
    ++ padL 4 (toString (rhe (c.availability * 100)) ++ "%") ++ "  "
    ++ (match aliasOf c.peer_id with
        | some a => a
        | none => String.mk (c.peer_id.toList.take 32))

/-- Value `biggest = max(max(int(c[1]), int(c[2])) for c in chans)` over a
non-empty channel list. -/
def biggestOf (c0 : ChanEntry) (rest : List ChanEntry) : ℤ :=
  rest.foldl (fun m c => max m (max c.to_us c.to_them))
    (max c0.to_us c0.to_them)

/-- Call `msat_to_approx_str(Millisatoshi(max_msat))` as used by
`append_header`: `round_to_n` takes `log10` of the amount, so a
non-positive amount raises `ValueError` (`logDomain`). -/
def msatApprox (fmt : ℕ → String) (msat : ℤ) : Except RenderErr String :=
  if msat ≤ 0 then .error .logDomain
  else .ok ((msat_to_approx_str fmt msat.toNat).getD (""))

/-- The table-rendering tail of `summary` (lines 225-279): nothing for an
empty channel list, otherwise the header formatted from `biggest`
followed by one line per channel.  Errors propagate as a report failure. -/
def renderTable (fmt : ℕ → String) (aliasOf : String → Option String) :
    List ChanEntry → Except RenderErr (List String)
  | [] => .ok []
  | c0 :: rest =>
      let biggest := biggestOf c0 rest
      match msatApprox fmt biggest with
      | .error e => .error e
      | .ok short_str =>
          match (c0 :: rest).mapM
              (fun c => Except.map (lineOf aliasOf c)
                (renderBar biggest c.to_us c.to_them)) with
          | .error e => .error e
          | .ok lines => .ok (headerLine short_str :: lines)

/-- The error of a rendered table, when it failed. -/
def tableErr (e : Except RenderErr (List String)) : Option RenderErr :=
  match e with
  | .error x => some x
  | .ok _ => none

/-- Number of peers reported as connected (the reading of
`num_connected` the specification asserts). -/
def numConnectedPeers (peers : List Peer) : ℕ :=
  (peers.filter (fun p => p.connected)).length

/-- Number of (peer, channel) pairs with an active, non-excluded channel
and a connected peer: what `num_connected` actually counts. -/
def connectedKeptCount (ex : String) (peers : List Peer) : ℕ :=
  (peers.map
    (fun p =>
      if p.connected then (p.channels.filter (keptFilter ex)).length else 0)).sum

/-- Number of active non-excluded channels, per peer, summed. -/
def numChannelsSpec (ex : String) (peers : List Peer) : ℕ :=
  (peers.map (fun p => (p.channels.filter (keptFilter ex)).length)).sum

/-- Closed form of the channel loop's contribution for one peer. -/
def chansContrib (ex : String) (p : Peer) (v : ℚ) (cs : List ChannelInfo) :
    Reply :=
  ⟨((cs.filter (keptFilter ex)).map chanToUs).sum,
   ((cs.filter (keptFilter ex)).map chanToThem).sum,
   (cs.filter (keptFilter ex)).length,
   if p.connected then (cs.filter (keptFilter ex)).length else 0,
   0,
   (cs.filter (keptFilter ex)).map (chanEntryOf p v)⟩

/-- Closed form of one peer's whole contribution to the report. -/
def peerContrib (ex : String) (p : Peer) (v : ℚ) : Reply :=
  if !(p.channels.any isActive) && p.connected then
    { chansContrib ex p v p.channels with num_gossipers := 1 }
  else chansContrib ex p v p.channels

/-- Closed form of the whole loop's contribution, threading `addpeer`. -/
def totalContrib (ex : String) (now : ℕ) : List Peer → PState → Reply
  | [], _ => initReply
  | p :: rest, ps =>
      (peerContrib ex p (prevOrSeed ps p)).merge
        (totalContrib ex now rest (addpeer now p ps))

/-- A constant formatter, for concrete witnesses. -/
def fmt0 : ℕ → String := fun _ => ""

/-- An alias lookup that knows nobody, for concrete witnesses. -/
def aliasNone : String → Option String := fun _ => none

/-- A first active channel, for concrete inputs. -/
def chanA : ChannelInfo := ⟨"CHANNELD_NORMAL", "111x1x1", 1000, 500, 10, 10, false⟩

/-- A second active channel, for concrete inputs. -/
def chanB : ChannelInfo := ⟨"CHANNELD_NORMAL", "222x2x2", 1000, 500, 10, 10, false⟩

/-- A connected peer owning two active channels. -/
def peerTwo : Peer := ⟨"P", true, [chanA, chanB]⟩

/-- A connected peer owning one active channel. -/
def peerOne : Peer := ⟨"P", true, [chanA]⟩

/-- A connected channel-less peer. -/
def pA : Peer := ⟨"A", true, []⟩

/-- A second connected channel-less peer. -/
def pB : Peer := ⟨"B", true, []⟩

/-- The same peer as `pB`, observed disconnected. -/
def pBd : Peer := ⟨"B", false, []⟩

/-- A `peerstate` holding one fully-available entry for peer B. -/
def psB : PState := setPeer emptyPS ("B") ⟨true, none, 1⟩

/-- A channel entry whose two usable balances are both zero. -/
def zeroEntry : ChanEntry := ⟨1000, 0, 0, "P", false, true, "111x1x1", 1⟩


/-! ### Estimator lemmas -/

theorem interval_le_leadwin (c : ℕ) : interval ≤ leadwin c :=
  le_max_right _ _

theorem interval_pos : 0 < interval := by norm_num [interval]

theorem one_le_samples (c : ℕ) : 1 ≤ samples c := by
  have h : (interval : ℚ) ≤ (leadwin c : ℚ) := by
    exact_mod_cast interval_le_leadwin c
  have hip : (0 : ℚ) < (interval : ℚ) := by
    exact_mod_cast interval_pos
  rw [samples, one_le_div hip]
  exact h

theorem samples_pos (c : ℕ) : 0 < samples c :=
  lt_of_lt_of_le one_pos (one_le_samples c)

theorem alpha_pos (c : ℕ) : 0 < alpha c := by
  rw [alpha]
  exact div_pos one_pos (samples_pos c)

theorem alpha_le_one (c : ℕ) : alpha c ≤ 1 := by
  rw [alpha, div_le_one (samples_pos c)]
  exact one_le_samples c

theorem beta_nonneg (c : ℕ) : 0 ≤ beta c := by
  have := alpha_le_one c
  rw [beta]
  linarith

theorem beta_le_one (c : ℕ) : beta c ≤ 1 := by
  have := alpha_pos c
  rw [beta]
  linarith

theorem convex_unit (s a al : ℚ) (hs0 : 0 ≤ s) (hs1 : s ≤ 1) (ha0 : 0 ≤ a)
    (ha1 : a ≤ 1) (hal0 : 0 ≤ al) (hal1 : al ≤ 1) :
    0 ≤ s * al + a * (1 - al) ∧ s * al + a * (1 - al) ≤ 1 := by
  constructor <;> nlinarith

theorem setPeer_self (ps : PState) (pid : String) (st : PeerState) :
    setPeer ps pid st pid = some st := by
  simp [setPeer]

theorem setPeer_ne (ps : PState) (pid : String) (st : PeerState) {q : String}
    (h : q ≠ pid) : setPeer ps pid st q = ps q := by
  simp [setPeer, h]

theorem addpeer_ne (now : ℕ) (p : Peer) (ps : PState) {q : String}
    (h : q ≠ p.id) : addpeer now p ps q = ps q := by
  cases hps : ps p.id with
  | some st => simp [addpeer, hps]
  | none => simp [addpeer, hps, setPeer, h]

theorem setPeer_bounded (ps : PState) (pid : String) (st : PeerState)
    (hb : AvailBounded ps) (hst : 0 ≤ st.availability ∧ st.availability ≤ 1) :
    AvailBounded (setPeer ps pid st) := by
  intro q st2 h
  by_cases hq : q = pid
  · subst hq
    rw [setPeer_self] at h
    cases h
    exact hst
  · rw [setPeer_ne _ _ _ hq] at h
    exact hb _ _ h

theorem addpeer_bounded (now : ℕ) (p : Peer) (ps : PState)
    (hb : AvailBounded ps) : AvailBounded (addpeer now p ps) := by
  cases hps : ps p.id with
  | some st0 =>
      simp only [addpeer, hps]
      exact hb
  | none =>
      simp only [addpeer, hps]
      apply setPeer_bounded _ _ _ hb
      cases p.connected <;> norm_num

theorem mix_bounded (s a : ℚ) (c : ℕ) (hs0 : 0 ≤ s) (hs1 : s ≤ 1)
    (ha0 : 0 ≤ a) (ha1 : a ≤ 1) :
    0 ≤ s * alpha c + a * beta c ∧ s * alpha c + a * beta c ≤ 1 := by
  have h1 := alpha_pos c
  have h2 := alpha_le_one c
  have h3 : beta c = 1 - alpha c := rfl
  have h4 : 0 ≤ (1 - s) * alpha c :=
    mul_nonneg (by linarith) (le_of_lt h1)
  have h5 : 0 ≤ (1 - a) * beta c :=
    mul_nonneg (by linarith) (beta_nonneg c)
  have h6 : 0 ≤ s * alpha c := mul_nonneg hs0 (le_of_lt h1)
  have h7 : 0 ≤ a * beta c := mul_nonneg ha0 (beta_nonneg c)
  constructor <;> nlinarith

theorem tickPeer_bounded (c now : ℕ) (ps : PState) (p : Peer)
    (hb : AvailBounded ps) : AvailBounded (tickPeer c now ps p) := by
  have hb1 : AvailBounded (addpeer now p ps) := addpeer_bounded now p ps hb
  cases hx : (addpeer now p ps) p.id with
  | none =>
      simp only [tickPeer, hx]
      exact hb1
  | some st0 =>
      have hst0 := hb1 _ _ hx
      cases hc : p.connected with
      | true =>
          simp only [tickPeer, hx, hc, if_true]
          exact setPeer_bounded _ _ _ hb1
            (mix_bounded 1 st0.availability c (by norm_num) (by norm_num)
              hst0.1 hst0.2)
      | false =>
          simp only [tickPeer, hx, hc, Bool.false_eq_true, if_false]
          exact setPeer_bounded _ _ _ hb1
            (mix_bounded 0 st0.availability c (by norm_num) (by norm_num)
              hst0.1 hst0.2)

theorem tick_bounded (c now : ℕ) (peers : List Peer) (ps : PState)
    (hb : AvailBounded ps) : AvailBounded (tick c now peers ps) := by
  induction peers generalizing ps with
  | nil => exact hb
  | cons p rest ih =>
      rw [tick, List.foldl_cons]
      exact ih (tickPeer c now ps p) (tickPeer_bounded c now ps p hb)


theorem runTicks_bounded (count : ℕ) (obs : List (List Peer)) (ps : PState)
    (hb : AvailBounded ps) : AvailBounded (runTicks count obs ps) := by
  induction obs generalizing count ps with
  | nil => exact hb
  | cons o rest ih =>
      simp only [runTicks]
      exact ih (count + 1) _ (tick_bounded (count + 1) 0 o ps hb)

/-- C5: for every sequence of sampling ticks and every tracked peer, the
stored availability stays in the closed interval [0,1]: the seed written
by `addpeer` is 0 or 1, and every tick replaces the value with the convex
combination `sample * alpha + availability * beta` of the previous value
and a sample in \x7b0, 1\x7d, with `alpha ∈ (0,1]`. -/
theorem availability_in_unit_interval (count : ℕ) (obs : List (List Peer))
    (ps : PState) (hb : AvailBounded ps) :
    AvailBounded (runTicks count obs ps) :=
  runTicks_bounded count obs ps hb

theorem availability_in_unit_interval_witness :
    AvailBounded (runTicks 0 [[pA]] emptyPS) :=
  availability_in_unit_interval 0 [[pA]] emptyPS
    (fun pid st h => absurd h (by simp [emptyPS]))

theorem tickPeer_ne (c now : ℕ) (ps : PState) (p : Peer) {q : String}
    (h : q ≠ p.id) : (tickPeer c now ps p) q = ps q := by
  have ha : (addpeer now p ps) q = ps q := addpeer_ne now p ps h
  cases hx : (addpeer now p ps) p.id with
  | none =>
      simp only [tickPeer, hx]
      exact ha
  | some st0 =>
      cases hc : p.connected with
      | true =>
          simp only [tickPeer, hx, hc, if_true]
          rw [setPeer_ne _ _ _ h]
          exact ha
      | false =>
          simp only [tickPeer, hx, hc, Bool.false_eq_true, if_false]
          rw [setPeer_ne _ _ _ h]
          exact ha

theorem foldl_tickPeer_ne (c now : ℕ) {q : String} :
    ∀ (l : List Peer) (ps : PState), (∀ r ∈ l, q ≠ r.id) →
      (l.foldl (tickPeer c now) ps) q = ps q := by
  intro l
  induction l with
  | nil => intro ps _; rfl
  | cons r rest ih =>
      intro ps hall
      rw [List.foldl_cons,
        ih (tickPeer c now ps r) (fun x hx => hall x (List.mem_cons_of_mem _ hx))]
      exact tickPeer_ne c now ps r (hall r (List.mem_cons_self _ _))

theorem tickPeer_self (c now : ℕ) (ps : PState) (p : Peer) :
    (tickPeer c now ps p) p.id =
      some ⟨p.connected, if p.connected then some now else prevLS ps p,
        (if p.connected then (1 : ℚ) else 0) * alpha c + prevOrSeed ps p * beta c⟩ := by
  cases hps : ps p.id with
  | some st0 =>
      have ha : addpeer now p ps = ps := by simp only [addpeer, hps]
      cases hc : p.connected with
      | true => simp [tickPeer, ha, hps, hc, setPeer_self, prevOrSeed, prevLS]
      | false => simp [tickPeer, ha, hps, hc, setPeer_self, prevOrSeed, prevLS]
  | none =>
      cases hc : p.connected with
      | true => simp [tickPeer, addpeer, hps, hc, setPeer, prevOrSeed, prevLS]
      | false => simp [tickPeer, addpeer, hps, hc, setPeer, prevOrSeed, prevLS]

theorem prevOrSeed_congr {ps1 ps2 : PState} (p : Peer)
    (h : ps1 p.id = ps2 p.id) : prevOrSeed ps1 p = prevOrSeed ps2 p := by
  unfold prevOrSeed
  rw [h]

theorem prevLS_congr {ps1 ps2 : PState} (p : Peer)
    (h : ps1 p.id = ps2 p.id) : prevLS ps1 p = prevLS ps2 p := by
  unfold prevLS
  rw [h]

theorem tick_lookup (c now : ℕ) :
    ∀ (peers : List Peer) (ps : PState) (p : Peer), p ∈ peers →
      (peers.map Peer.id).Nodup →
      (tick c now peers ps) p.id =
        some ⟨p.connected, if p.connected then some now else prevLS ps p,
          (if p.connected then (1 : ℚ) else 0) * alpha c + prevOrSeed ps p * beta c⟩ := by
  intro peers
  induction peers with
  | nil => intro ps p hp _; exact absurd hp (List.not_mem_nil p)
  | cons q rest ih =>
      intro ps p hp hnd
      rw [List.map_cons, List.nodup_cons] at hnd
      obtain ⟨hqn, hnd2⟩ := hnd
      rcases List.mem_cons.mp hp with rfl | hpr
      · rw [tick, List.foldl_cons]
        have hrest : ∀ r ∈ rest, p.id ≠ r.id := by
          intro r hr heq
          exact hqn (by rw [heq]; exact List.mem_map_of_mem Peer.id hr)
        rw [foldl_tickPeer_ne c now rest (tickPeer c now ps p) hrest]
        exact tickPeer_self c now ps p
      · have hpq : p.id ≠ q.id := by
          intro heq
          exact hqn (by rw [← heq]; exact List.mem_map_of_mem Peer.id hpr)
        rw [tick, List.foldl_cons]
        have hstep := ih (tickPeer c now ps q) p hpr hnd2
        rw [tick] at hstep
        rw [hstep]
        have hsame : (tickPeer c now ps q) p.id = ps p.id :=
          tickPeer_ne c now ps q hpq
        rw [prevOrSeed_congr p hsame, prevLS_congr p hsame]

/-- C2 (amended): at every sampling tick the smoothing factors are
`alpha count` and `beta count`, computed from the sampler's single
global tick counter and applied identically to every observed peer; the
state keeps no per-peer sample count, so a peer first observed late in
the process's life is smoothed (from its second update onward) with the
then-current long window, not with a short per-peer warm-up window. -/
theorem tick_update_uses_global_count (c now : ℕ) (peers : List Peer)
    (ps : PState) (p : Peer) (hp : p ∈ peers)
    (hnd : (peers.map Peer.id).Nodup) :
    (tick c now peers ps) p.id =
      some ⟨p.connected, if p.connected then some now else prevLS ps p,
        (if p.connected then (1 : ℚ) else 0) * alpha c + prevOrSeed ps p * beta c⟩ :=
  tick_lookup c now peers ps p hp hnd

theorem tick_update_uses_global_count_witness :
    (tick 3 7 [pBd] psB) ("B") = some ⟨false, none, 0 * alpha 3 + 1 * beta 3⟩ := by
  have h := tick_update_uses_global_count 3 7 [pBd] psB pBd
    (by simp) (by simp)
  simpa [pBd, psB, prevOrSeed, prevLS, setPeer, emptyPS] using h

theorem alpha_three : alpha 3 = 1 / 3 := by
  have hl : leadwin 3 = 900 := by norm_num [leadwin, interval, window]
  rw [alpha, samples, hl, interval]
  norm_num

/-- C2 (counterexample): peer B is first observed (connected) at the
sampler's second tick and seen disconnected at the third, which is B's
own second observation.  A per-peer warm-up window of two samples would
give availability 1/2; the code applies the global factor
`alpha 3 = 1/3` and yields 2/3. -/
theorem late_peer_no_warmup_cex :
    ((runTicks 0 [[pA], [pA, pB], [pA, pBd]] emptyPS) ("B")).map
        PeerState.availability = some (2 / 3)
      ∧ alpha 3 = 1 / 3 ∧ (2 / 3 : ℚ) ≠ 1 / 2 := by
  have hrun : runTicks 0 [[pA], [pA, pB], [pA, pBd]] emptyPS =
      tick 3 0 [pA, pBd] (tick 2 0 [pA, pB] (tick 1 0 [pA] emptyPS)) := rfl
  have h1 : (tick 1 0 [pA] emptyPS) ("B") = none := by
    rw [tick, foldl_tickPeer_ne 1 0 [pA] emptyPS ?hne]
    · rfl
    case hne =>
      intro r hr
      rw [List.mem_singleton] at hr
      subst hr
      decide
  have hseed : prevOrSeed (tick 1 0 [pA] emptyPS) pB = 1 := by
    rw [prevOrSeed, show pB.id = "B" from rfl, h1]
    simp [pB]
  have h2 : (tick 2 0 [pA, pB] (tick 1 0 [pA] emptyPS)) ("B") =
      some ⟨true, some 0, 1 * alpha 2 + 1 * beta 2⟩ := by
    have h := tick_lookup 2 0 [pA, pB] (tick 1 0 [pA] emptyPS) pB
      (by simp) (by decide)
    rw [hseed] at h
    simpa [pB] using h
  have hv2 : (1 : ℚ) * alpha 2 + 1 * beta 2 = 1 := by
    rw [beta]
    ring
  have hprev2 : prevOrSeed (tick 2 0 [pA, pB] (tick 1 0 [pA] emptyPS)) pBd = 1 := by
    rw [prevOrSeed, show pBd.id = "B" from rfl, h2]
    exact hv2
  have h3 : (tick 3 0 [pA, pBd] (tick 2 0 [pA, pB] (tick 1 0 [pA] emptyPS))) ("B") =
      some ⟨false, prevLS (tick 2 0 [pA, pB] (tick 1 0 [pA] emptyPS)) pBd,
        0 * alpha 3 + 1 * beta 3⟩ := by
    have h := tick_lookup 3 0 [pA, pBd]
      (tick 2 0 [pA, pB] (tick 1 0 [pA] emptyPS)) pBd (by simp) (by decide)
    rw [hprev2] at h
    simpa [pBd] using h
  refine ⟨?_, alpha_three, by norm_num⟩
  rw [hrun, h3]
  rw [Option.map_some']
  rw [show (0 : ℚ) * alpha 3 + 1 * beta 3 = beta 3 by ring, beta, alpha_three]
  norm_num

/-- C6: on the first sampling tick the lead window is one interval, so
`alpha 1 = 1`, and every updated peer's stored availability becomes
exactly the instantaneous sample (1 if connected, 0 otherwise),
regardless of its prior seed or stored value. -/
theorem first_tick_alpha_one :
    leadwin 1 = interval ∧ alpha 1 = 1 ∧
      ∀ (now : ℕ) (peers : List Peer) (ps : PState) (p : Peer), p ∈ peers →
        (peers.map Peer.id).Nodup →
        ∃ st, (tick 1 now peers ps) p.id = some st ∧
          st.availability = (if p.connected then (1 : ℚ) else 0) := by
  have hl : leadwin 1 = interval := by norm_num [leadwin, interval, window]
  have hip : ((interval : ℚ)) ≠ 0 := by norm_num [interval]
  have ha : alpha 1 = 1 := by
    rw [alpha, samples, hl, div_self hip]
    norm_num
  refine ⟨hl, ha, ?_⟩
  intro now peers ps p hp hnd
  refine ⟨_, tick_lookup 1 now peers ps p hp hnd, ?_⟩
  dsimp only
  rw [beta, ha]
  ring

theorem first_tick_alpha_one_witness :
    ∃ st, (tick 1 5 [pA] emptyPS) ("A") = some st ∧ st.availability = 1 := by
  obtain ⟨st, h1, h2⟩ := first_tick_alpha_one.2.2 5 [pA] emptyPS pA
    (by simp) (by simp)
  refine ⟨st, h1, ?_⟩
  simpa [pA] using h2


/-! ### Money-formatter lemmas -/

theorem round_to_n_stable (msat n : ℕ) (h : Nat.log 10 msat + 1 ≤ n) :
    round_to_n msat n = msat := by
  simp [round_to_n, h]

theorem approx_loop_step (fmt : ℕ → String) (msat fuel digits : ℕ)
    (ropt : Option String) :
    approx_str_loop fmt msat (fuel + 1) digits ropt =
      (let t := fmt (round_to_n msat digits)
       match ropt with
       | none => approx_str_loop fmt msat fuel (digits + 1) (some t)
       | some r =>
           if t = r then some r
           else if t.length ≤ r.length then
             approx_str_loop fmt msat fuel (digits + 1) (some t)
           else some r) := rfl

theorem approx_after_stable (fmt : ℕ → String) (msat fuel digits : ℕ)
    (h : Nat.log 10 msat + 1 ≤ digits) :
    approx_str_loop fmt msat (fuel + 1) digits (some (fmt msat)) =
      some (fmt msat) := by
  rw [approx_loop_step]
  dsimp only
  rw [round_to_n_stable msat digits h, if_pos rfl]

theorem approx_loop_term_aux (fmt : ℕ → String) (msat : ℕ) :
    ∀ (n digits : ℕ) (ropt : Option String),
      Nat.log 10 msat + 1 ≤ digits + n →
      ∃ s, approx_str_loop fmt msat (n + 2) digits ropt = some s := by
  intro n
  induction n with
  | zero =>
      intro digits ropt h
      rw [Nat.add_zero] at h
      have hd1 : Nat.log 10 msat + 1 ≤ digits + 1 := le_trans h (Nat.le_succ digits)
      rw [show (0 : ℕ) + 2 = 1 + 1 from rfl, approx_loop_step]
      cases ropt with
      | none =>
          dsimp only
          rw [round_to_n_stable msat digits h]
          exact ⟨fmt msat, approx_after_stable fmt msat 0 (digits + 1) hd1⟩
      | some r =>
          dsimp only
          rw [round_to_n_stable msat digits h]
          by_cases he : fmt msat = r
          · rw [if_pos he]
            exact ⟨r, rfl⟩
          · rw [if_neg he]
            by_cases hlen : (fmt msat).length ≤ r.length
            · rw [if_pos hlen]
              exact ⟨fmt msat, approx_after_stable fmt msat 0 (digits + 1) hd1⟩
            · rw [if_neg hlen]
              exact ⟨r, rfl⟩
  | succ k ih =>
      intro digits ropt h
      have hstep : k + 1 + 2 = (k + 2) + 1 := by omega
      rw [hstep, approx_loop_step]
      have h2 : Nat.log 10 msat + 1 ≤ (digits + 1) + k := by omega
      cases ropt with
      | none =>
          dsimp only
          exact ih (digits + 1) (some _) h2
      | some r =>
          dsimp only
          by_cases he : fmt (round_to_n msat digits) = r
          · rw [if_pos he]
            exact ⟨r, rfl⟩
          · rw [if_neg he]
            by_cases hlen : (fmt (round_to_n msat digits)).length ≤ r.length
            · rw [if_pos hlen]
              exact ih (digits + 1) (some _) h2
            · rw [if_neg hlen]
              exact ⟨r, rfl⟩

/-- C7: for every positive amount and starting significant-digit count
`digits ≥ 1`, the `msat_to_approx_str` iteration terminates (for any unit
renderer `fmt`): fuel `Nat.log 10 msat + 3` always suffices, because once
`digits` reaches the amount's digit count `round_to_n` reproduces the
amount exactly and the next iteration returns the identical string.  The
loop returns exactly when an iteration reproduces the previous best
string or produces a strictly longer candidate, as coded in
`approx_str_loop`. -/
theorem msat_to_approx_terminates (fmt : ℕ → String) (msat digits : ℕ)
    (hpos : 0 < msat) (hd : 1 ≤ digits) :
    (∃ s, approx_str_loop fmt msat (Nat.log 10 msat + 3) digits none = some s) ∧
      ∃ s, msat_to_approx_str fmt msat = some s := by
  constructor
  · have h := approx_loop_term_aux fmt msat (Nat.log 10 msat + 1) digits none
      (by omega)
    rwa [show Nat.log 10 msat + 1 + 2 = Nat.log 10 msat + 3 by omega] at h
  · rw [msat_to_approx_str]
    have h := approx_loop_term_aux fmt msat (Nat.log 10 msat + 1) 3 none
      (by omega)
    rwa [show Nat.log 10 msat + 1 + 2 = Nat.log 10 msat + 3 by omega] at h

theorem msat_to_approx_terminates_witness :
    (∃ s, approx_str_loop fmt0 1500 (Nat.log 10 1500 + 3) 3 none = some s) ∧
      ∃ s, msat_to_approx_str fmt0 1500 = some s :=
  msat_to_approx_terminates fmt0 1500 3 (by norm_num) (by norm_num)

/-! ### Renderer lemmas -/

theorem rhe_intCast (n : ℤ) : rhe ((n : ℚ)) = n := by
  norm_num [rhe, Int.floor_intCast]

theorem renderBar_1000 :
    renderBar 1000 0 1000 = Except.ok ⟨padL 23 "", draw.double_left,
      padR 23 (rep draw.bar 22 ++ String.singleton draw.right)⟩ := by
  have h0 : rhe (((0 : ℤ) : ℚ) / ((1000 : ℤ) : ℚ) * 23) = 0 := by
    rw [show ((0 : ℤ) : ℚ) / ((1000 : ℤ) : ℚ) * 23 = ((0 : ℤ) : ℚ) by
      push_cast
      norm_num]
    exact rhe_intCast 0
  have h23 : rhe (((1000 : ℤ) : ℚ) / ((1000 : ℤ) : ℚ) * 23) = 23 := by
    rw [show ((1000 : ℤ) : ℚ) / ((1000 : ℤ) : ℚ) * 23 = ((23 : ℤ) : ℚ) by
      push_cast
      norm_num]
    exact rhe_intCast 23
  simp only [renderBar, h0, h23]
  norm_num
  rfl

/-- C3 (counterexample): for `biggest = 1000`, `ownedAvailable = 0`,
`counterpartyAvailable = 1000`, the midpoint glyph the code renders is the
double-LEFT-cap, not the double-right-cap the claim names. -/
theorem zero_owned_midpoint_cex :
    barMid (renderBar 1000 0 1000) = draw.double_left ∧
      draw.double_left ≠ draw.double_right := by
  constructor
  · rw [renderBar_1000]
    rfl
  · decide

/-- C3 (amended): for `biggest = 1000`, `ownedAvailable = 0`,
`counterpartyAvailable = 1000`, the left segment is fully blank
(23 spaces), the midpoint glyph is the double-LEFT-cap variant, and the
right segment is a full 23-character-wide bar. -/
theorem zero_owned_full_counterside_bar :
    barLeft (renderBar 1000 0 1000) = spaces 23 ∧
      barMid (renderBar 1000 0 1000) = draw.double_left ∧
      barRight (renderBar 1000 0 1000) =
        rep draw.bar 22 ++ String.singleton draw.right ∧
      (barRight (renderBar 1000 0 1000)).length = 23 := by
  rw [renderBar_1000]
  refine ⟨by decide, rfl, by decide, by decide⟩

/-- C4: for every per-channel line with a non-zero `biggest`, the rendered
bar parts are exactly the specification's case analysis `specBarParts` of
the two rounded bar lengths: blank 23-wide left segment and double-left-cap
when `ownedLen = 0`; blank right segment and double-right-cap when
`counterpartyLen = 0` with `ownedLen > 0`; the dedicated empty glyph when
both are 0; otherwise capped bar-fill runs justified in 23-wide fields
around the plain midpoint. -/
theorem renderBar_matches_spec (b u t : ℤ) (hb : b ≠ 0) :
    renderBar b u t = Except.ok
      (specBarParts (rhe ((u : ℚ) / (b : ℚ) * 23))
        (rhe ((t : ℚ) / (b : ℚ) * 23))) := by
  rw [renderBar, if_neg hb]
  by_cases h1 : rhe ((u : ℚ) / (b : ℚ) * 23) = 0 <;>
    by_cases h2 : rhe ((t : ℚ) / (b : ℚ) * 23) = 0 <;>
      simp [specBarParts, h1, h2]

theorem renderBar_matches_spec_witness :
    renderBar 2 1 1 = Except.ok
      (specBarParts (rhe (((1 : ℤ) : ℚ) / ((2 : ℤ) : ℚ) * 23))
        (rhe (((1 : ℤ) : ℚ) / ((2 : ℤ) : ℚ) * 23))) :=
  renderBar_matches_spec 2 1 1 (by norm_num)

theorem foldl_max_zero :
    ∀ (l : List ChanEntry), (∀ c ∈ l, c.to_us = 0 ∧ c.to_them = 0) →
      l.foldl (fun m c => max m (max c.to_us c.to_them)) 0 = 0 := by
  intro l
  induction l with
  | nil => intro _; rfl
  | cons c rest ih =>
      intro hall
      have h := hall c (List.mem_cons_self _ _)
      rw [List.foldl_cons, h.1, h.2, show max (0 : ℤ) (max 0 0) = 0 by simp]
      exact ih (fun x hx => hall x (List.mem_cons_of_mem _ hx))

theorem biggestOf_zero (c0 : ChanEntry) (rest : List ChanEntry)
    (hall : ∀ c ∈ c0 :: rest, c.to_us = 0 ∧ c.to_them = 0) :
    biggestOf c0 rest = 0 := by
  have h0 := hall c0 (List.mem_cons_self _ _)
  rw [biggestOf, h0.1, h0.2, show max (0 : ℤ) 0 = 0 by simp]
  exact foldl_max_zero rest (fun x hx => hall x (List.mem_cons_of_mem _ hx))

/-- C9 (amended): when the eligible channel list is non-empty but every
channel has zero usable balance on both sides, `biggest = 0` and the
report fails instead of rendering a table — the failure is raised by the
header's money formatting, which takes `log10(0)` (`logDomain`), before
the per-channel bar code runs; the bar computation itself, called with
`biggest = 0`, would divide by zero.  The renderer thus has the unstated
precondition `biggest > 0`. -/
theorem zero_balances_report_fails (fmt : ℕ → String)
    (aliasOf : String → Option String) (c0 : ChanEntry) (rest : List ChanEntry)
    (hall : ∀ c ∈ c0 :: rest, c.to_us = 0 ∧ c.to_them = 0) :
    biggestOf c0 rest = 0 ∧
      renderTable fmt aliasOf (c0 :: rest) = Except.error RenderErr.logDomain ∧
      ∀ u t : ℤ, renderBar 0 u t = Except.error RenderErr.divByZero := by
  have hbig := biggestOf_zero c0 rest hall
  refine ⟨hbig, ?_, fun u t => by rw [renderBar, if_pos rfl]⟩
  simp [renderTable, msatApprox, hbig]

theorem zero_balances_report_fails_witness :
    biggestOf zeroEntry [] = 0 ∧
      renderTable fmt0 aliasNone [zeroEntry] = Except.error RenderErr.logDomain ∧
      ∀ u t : ℤ, renderBar 0 u t = Except.error RenderErr.divByZero := by
  apply zero_balances_report_fails
  intro c hc
  rw [List.mem_singleton] at hc
  subst hc
  exact ⟨rfl, rfl⟩

/-- C9 (counterexample): at the all-zero-balance input the report fails
with the `log10` domain error from the header's money formatter, not with
the division by zero the claim names — the bar division is never
reached. -/
theorem zero_balances_error_is_log_cex :
    tableErr (renderTable fmt0 aliasNone [zeroEntry]) = some RenderErr.logDomain ∧
      RenderErr.logDomain ≠ RenderErr.divByZero :=
  ⟨by decide, by decide⟩


/-! ### Summary-loop characterization -/

theorem Reply.merge_init_left (r : Reply) : initReply.merge r = r := by
  cases r
  simp [Reply.merge, initReply]

theorem Reply.merge_init_right (r : Reply) : r.merge initReply = r := by
  cases r
  simp [Reply.merge, initReply]

theorem Reply.merge_assoc (a b c : Reply) :
    (a.merge b).merge c = a.merge (b.merge c) := by
  cases a
  cases b
  cases c
  simp [Reply.merge, add_assoc, List.append_assoc]

theorem chansContrib_nil (ex : String) (p : Peer) (v : ℚ) :
    chansContrib ex p v [] = initReply := by
  simp [chansContrib, initReply]

theorem Reply.merge_zero (r : Reply) : r.merge ⟨0, 0, 0, 0, 0, []⟩ = r := by
  cases r
  simp [Reply.merge]

theorem Reply.merge_zero_left (r : Reply) : Reply.merge ⟨0, 0, 0, 0, 0, []⟩ r = r := by
  cases r
  simp [Reply.merge]

theorem chanStep_eq (ex : String) (p : Peer) (v : ℚ) (a : Bool) (r : Reply)
    (c : ChannelInfo) :
    chanStep ex p v (a, r) c = (a || isActive c, r.merge (chansContrib ex p v [c])) := by
  by_cases h1 : isActive c
  · by_cases h2 : excludedB ex c.short_channel_id
    · simp [chanStep, h1, h2, chansContrib, keptFilter, Reply.merge_zero]
    · by_cases hc : p.connected <;>
        simp [chanStep, h1, h2, hc, chansContrib, keptFilter, Reply.merge]
  · simp [chanStep, h1, chansContrib, keptFilter, Reply.merge_zero]

theorem chansContrib_cons (ex : String) (p : Peer) (v : ℚ) (c : ChannelInfo)
    (rest : List ChannelInfo) :
    chansContrib ex p v (c :: rest) =
      (chansContrib ex p v [c]).merge (chansContrib ex p v rest) := by
  by_cases hk : keptFilter ex c
  · by_cases hc : p.connected <;>
      simp [chansContrib, List.filter_cons, hk, hc, Reply.merge, Nat.add_comm,
        Int.add_comm]
  · simp [chansContrib, List.filter_cons, hk, Reply.merge_zero_left]

theorem chanStep_fold (ex : String) (p : Peer) (v : ℚ) :
    ∀ (cs : List ChannelInfo) (a : Bool) (r : Reply),
      cs.foldl (chanStep ex p v) (a, r) =
        (a || cs.any isActive, r.merge (chansContrib ex p v cs)) := by
  intro cs
  induction cs with
  | nil =>
      intro a r
      simp [chansContrib_nil, Reply.merge_init_right]
  | cons c rest ih =>
      intro a r
      rw [List.foldl_cons, chanStep_eq, ih, chansContrib_cons ex p v c rest,
        ← Reply.merge_assoc, List.any_cons, ← Bool.or_assoc]

theorem availRead_addpeer (now : ℕ) (p : Peer) (ps : PState) :
    availRead (addpeer now p ps) p.id = prevOrSeed ps p := by
  cases hps : ps p.id with
  | some st => simp [addpeer, availRead, prevOrSeed, hps]
  | none => simp [addpeer, availRead, prevOrSeed, hps, setPeer]

theorem peerStep_eq (ex : String) (now : ℕ) (ps : PState) (r : Reply) (p : Peer) :
    peerStep ex now (ps, r) p =
      (addpeer now p ps, r.merge (peerContrib ex p (prevOrSeed ps p))) := by
  simp only [peerStep]
  rw [availRead_addpeer, chanStep_fold]
  dsimp only
  rw [Bool.false_or]
  by_cases hg : !(p.channels.any isActive) && p.connected
  · rw [if_pos hg, peerContrib, if_pos hg]
    simp [Reply.merge, chansContrib]
  · rw [if_neg hg, peerContrib, if_neg hg]

theorem summary_foldl (ex : String) (now : ℕ) :
    ∀ (peers : List Peer) (ps : PState) (r : Reply),
      peers.foldl (peerStep ex now) (ps, r) =
        (peers.foldl (fun ps2 p => addpeer now p ps2) ps,
         r.merge (totalContrib ex now peers ps)) := by
  intro peers
  induction peers with
  | nil =>
      intro ps r
      simp [totalContrib, Reply.merge_init_right]
  | cons p rest ih =>
      intro ps r
      rw [List.foldl_cons, peerStep_eq, ih, List.foldl_cons, totalContrib,
        Reply.merge_assoc]

theorem summary_eq (ex : String) (now : ℕ) (peers : List Peer) (ps : PState) :
    summary ex now peers ps = totalContrib ex now peers ps := by
  rw [summary, summary_foldl]
  dsimp only
  rw [Reply.merge_init_left]

theorem peerContrib_num_connected (ex : String) (p : Peer) (v : ℚ) :
    (peerContrib ex p v).num_connected =
      if p.connected then (p.channels.filter (keptFilter ex)).length else 0 := by
  rw [peerContrib]
  by_cases hg : !(p.channels.any isActive) && p.connected <;>
    simp [hg, chansContrib]

theorem peerContrib_num_channels (ex : String) (p : Peer) (v : ℚ) :
    (peerContrib ex p v).num_channels =
      (p.channels.filter (keptFilter ex)).length := by
  rw [peerContrib]
  by_cases hg : !(p.channels.any isActive) && p.connected <;>
    simp [hg, chansContrib]

theorem peerContrib_chans (ex : String) (p : Peer) (v : ℚ) :
    (peerContrib ex p v).chans =
      (p.channels.filter (keptFilter ex)).map (chanEntryOf p v) := by
  rw [peerContrib]
  by_cases hg : !(p.channels.any isActive) && p.connected <;>
    simp [hg, chansContrib]

theorem peerContrib_avail_out (ex : String) (p : Peer) (v : ℚ) :
    (peerContrib ex p v).avail_out =
      ((p.channels.filter (keptFilter ex)).map chanToUs).sum := by
  rw [peerContrib]
  by_cases hg : !(p.channels.any isActive) && p.connected <;>
    simp [hg, chansContrib]

theorem peerContrib_avail_in (ex : String) (p : Peer) (v : ℚ) :
    (peerContrib ex p v).avail_in =
      ((p.channels.filter (keptFilter ex)).map chanToThem).sum := by
  rw [peerContrib]
  by_cases hg : !(p.channels.any isActive) && p.connected <;>
    simp [hg, chansContrib]

theorem peerContrib_num_gossipers (ex : String) (p : Peer) (v : ℚ) :
    (peerContrib ex p v).num_gossipers =
      if !(p.channels.any isActive) && p.connected then 1 else 0 := by
  rw [peerContrib]
  by_cases hg : !(p.channels.any isActive) && p.connected <;>
    simp [hg, chansContrib]

theorem totalContrib_num_connected (ex : String) (now : ℕ) :
    ∀ (peers : List Peer) (ps : PState),
      (totalContrib ex now peers ps).num_connected = connectedKeptCount ex peers := by
  intro peers
  induction peers with
  | nil => intro ps; rfl
  | cons p rest ih =>
      intro ps
      rw [totalContrib]
      show (peerContrib ex p (prevOrSeed ps p)).num_connected +
        (totalContrib ex now rest (addpeer now p ps)).num_connected = _
      rw [peerContrib_num_connected, ih, connectedKeptCount, connectedKeptCount,
        List.map_cons, List.sum_cons]

theorem totalContrib_num_channels (ex : String) (now : ℕ) :
    ∀ (peers : List Peer) (ps : PState),
      (totalContrib ex now peers ps).num_channels = numChannelsSpec ex peers := by
  intro peers
  induction peers with
  | nil => intro ps; rfl
  | cons p rest ih =>
      intro ps
      rw [totalContrib]
      show (peerContrib ex p (prevOrSeed ps p)).num_channels +
        (totalContrib ex now rest (addpeer now p ps)).num_channels = _
      rw [peerContrib_num_channels, ih, numChannelsSpec, numChannelsSpec,
        List.map_cons, List.sum_cons]

theorem totalContrib_avail_out_eq_chans (ex : String) (now : ℕ) :
    ∀ (peers : List Peer) (ps : PState),
      (totalContrib ex now peers ps).avail_out =
        ((totalContrib ex now peers ps).chans.map ChanEntry.to_us).sum := by
  intro peers
  induction peers with
  | nil => intro ps; rfl
  | cons p rest ih =>
      intro ps
      rw [totalContrib]
      show (peerContrib ex p (prevOrSeed ps p)).avail_out +
          (totalContrib ex now rest (addpeer now p ps)).avail_out =
        (((peerContrib ex p (prevOrSeed ps p)).chans ++
            (totalContrib ex now rest (addpeer now p ps)).chans).map
          ChanEntry.to_us).sum
      rw [List.map_append, List.sum_append, ih, peerContrib_avail_out,
        peerContrib_chans, List.map_map]
      have hfun : ChanEntry.to_us ∘ chanEntryOf p (prevOrSeed ps p) = chanToUs := by
        funext c
        rfl
      rw [hfun]

theorem totalContrib_avail_in_eq_chans (ex : String) (now : ℕ) :
    ∀ (peers : List Peer) (ps : PState),
      (totalContrib ex now peers ps).avail_in =
        ((totalContrib ex now peers ps).chans.map ChanEntry.to_them).sum := by
  intro peers
  induction peers with
  | nil => intro ps; rfl
  | cons p rest ih =>
      intro ps
      rw [totalContrib]
      show (peerContrib ex p (prevOrSeed ps p)).avail_in +
          (totalContrib ex now rest (addpeer now p ps)).avail_in =
        (((peerContrib ex p (prevOrSeed ps p)).chans ++
            (totalContrib ex now rest (addpeer now p ps)).chans).map
          ChanEntry.to_them).sum
      rw [List.map_append, List.sum_append, ih, peerContrib_avail_in,
        peerContrib_chans, List.map_map]
      have hfun : ChanEntry.to_them ∘ chanEntryOf p (prevOrSeed ps p) = chanToThem := by
        funext c
        rfl
      rw [hfun]

theorem totalContrib_gossip (ex : String) (now : ℕ) :
    ∀ (peers : List Peer) (ps : PState),
      (totalContrib ex now peers ps).num_gossipers =
        (totalContrib ("") now peers ps).num_gossipers := by
  intro peers
  induction peers with
  | nil => intro ps; rfl
  | cons p rest ih =>
      intro ps
      rw [totalContrib, totalContrib]
      show (peerContrib ex p (prevOrSeed ps p)).num_gossipers +
          (totalContrib ex now rest (addpeer now p ps)).num_gossipers =
        (peerContrib ("") p (prevOrSeed ps p)).num_gossipers +
          (totalContrib ("") now rest (addpeer now p ps)).num_gossipers
      rw [peerContrib_num_gossipers, peerContrib_num_gossipers, ih]

theorem containsSub_nil_needle : ∀ hay : List Char, containsSub [] hay = true := by
  intro hay
  cases hay <;> simp [containsSub, leadsWith]

theorem excludedB_empty_scid (ex : String) : excludedB ex ("") = true :=
  containsSub_nil_needle ex.toList

theorem keptFilter_empty_and (ex : String) (c : ChannelInfo) :
    keptFilter ex c = (keptFilter ("") c && !excludedB ex c.short_channel_id) := by
  cases hs : excludedB ("") c.short_channel_id
  · simp [keptFilter, hs, Bool.and_assoc]
  · have h1 : c.short_channel_id.toList = [] := by
      have h2 : c.short_channel_id.toList.isEmpty = true := hs
      rwa [List.isEmpty_iff] at h2
    have h3 : excludedB ex c.short_channel_id = true := by
      rw [excludedB, h1]
      exact containsSub_nil_needle _
    simp [keptFilter, hs, h3]

theorem filter_keptFilter_factor (ex : String) (cs : List ChannelInfo) :
    cs.filter (keptFilter ex) =
      (cs.filter (keptFilter (""))).filter
        (fun c => !excludedB ex c.short_channel_id) := by
  rw [List.filter_filter]
  apply List.filter_congr
  intro c _
  rw [keptFilter_empty_and ex c]
  rw [Bool.and_comm]

theorem map_entry_filter (p : Peer) (v : ℚ) (ex : String) :
    ∀ (l : List ChannelInfo),
      (l.map (chanEntryOf p v)).filter (fun e => !excludedB ex e.scid) =
        (l.filter (fun c => !excludedB ex c.short_channel_id)).map
          (chanEntryOf p v) := by
  intro l
  induction l with
  | nil => rfl
  | cons c rest ih =>
      rw [List.map_cons, List.filter_cons, List.filter_cons]
      cases hq : excludedB ex c.short_channel_id <;> simp [chanEntryOf, hq, ih]

theorem totalContrib_chans_filter (ex : String) (now : ℕ) :
    ∀ (peers : List Peer) (ps : PState),
      (totalContrib ex now peers ps).chans =
        ((totalContrib ("") now peers ps).chans).filter
          (fun e => !excludedB ex e.scid) := by
  intro peers
  induction peers with
  | nil => intro ps; rfl
  | cons p rest ih =>
      intro ps
      rw [totalContrib, totalContrib]
      show (peerContrib ex p (prevOrSeed ps p)).chans ++
          (totalContrib ex now rest (addpeer now p ps)).chans =
        ((peerContrib ("") p (prevOrSeed ps p)).chans ++
            (totalContrib ("") now rest (addpeer now p ps)).chans).filter
          (fun e => !excludedB ex e.scid)
      rw [List.filter_append, peerContrib_chans, peerContrib_chans, ← ih,
        map_entry_filter p (prevOrSeed ps p) ex (p.channels.filter (keptFilter (""))),
        ← filter_keptFilter_factor]

/-- C1 (amended): `num_connected` equals the number of (peer, channel)
pairs where the channel is in state CHANNELD_NORMAL and not excluded and
the peer is connected — i.e. it is incremented once per non-excluded
active channel of a connected peer, not once per connected peer, and it
depends on the exclusion argument. -/
theorem num_connected_eq_connectedKeptCount (ex : String) (now : ℕ)
    (peers : List Peer) (ps : PState) :
    (summary ex now peers ps).num_connected = connectedKeptCount ex peers := by
  rw [summary_eq]
  exact totalContrib_num_connected ex now peers ps

/-- C1 (counterexample): a single connected peer with two active,
non-excluded channels yields `num_connected = 2`, while the number of
peers reported as connected is 1. -/
theorem num_connected_counts_channels_cex :
    (summary ("") 0 [peerTwo] emptyPS).num_connected = 2 ∧
      numConnectedPeers [peerTwo] = 1 :=
  ⟨by decide, by decide⟩

/-- C8 (amended): the exclusion removes exactly the matched channels:
the channel table with exclusion `ex` is the unexcluded table filtered by
the substring test on the short-channel-id; the `avail_out`/`avail_in`
aggregates are exactly the sums of the listed channels' own usable
balances; and the gossip-only count is independent of the exclusion.
(The connected count is NOT independent of the exclusion — see the
counterexample.) -/
theorem exclusion_frame_effect (ex : String) (now : ℕ) (peers : List Peer)
    (ps : PState) :
    (summary ex now peers ps).chans =
        ((summary ("") now peers ps).chans).filter
          (fun e => !excludedB ex e.scid) ∧
      (summary ex now peers ps).avail_out =
        ((summary ex now peers ps).chans.map ChanEntry.to_us).sum ∧
      (summary ex now peers ps).avail_in =
        ((summary ex now peers ps).chans.map ChanEntry.to_them).sum ∧
      (summary ex now peers ps).num_gossipers =
        (summary ("") now peers ps).num_gossipers := by
  rw [summary_eq, summary_eq]
  exact ⟨totalContrib_chans_filter ex now peers ps,
    totalContrib_avail_out_eq_chans ex now peers ps,
    totalContrib_avail_in_eq_chans ex now peers ps,
    totalContrib_gossip ex now peers ps⟩

/-- C8 (counterexample): excluding the only active channel of a connected
peer drops `num_connected` from 1 to 0, so the peer-level connection
count is not computed independently of the exclusion set. -/
theorem num_connected_depends_on_exclude_cex :
    (summary ("111x1x1") 0 [peerOne] emptyPS).num_connected = 0 ∧
      (summary ("") 0 [peerOne] emptyPS).num_connected = 1 :=
  ⟨by decide, by decide⟩

theorem leadsWith_iff : ∀ (a b : List Char),
    leadsWith a b = true ↔ ∃ r, b = a ++ r := by
  intro a
  induction a with
  | nil =>
      intro b
      simp [leadsWith]
  | cons x xs ih =>
      intro b
      cases b with
      | nil => simp [leadsWith]
      | cons y ys =>
          rw [leadsWith, Bool.and_eq_true, beq_iff_eq, ih]
          constructor
          · rintro ⟨rfl, r, rfl⟩
            exact ⟨r, rfl⟩
          · rintro ⟨r, hr⟩
            rw [List.cons_append] at hr
            injection hr with h1 h2
            exact ⟨h1.symm, r, h2⟩

theorem containsSub_iff : ∀ (needle hay : List Char),
    containsSub needle hay = true ↔ ∃ l r, hay = l ++ needle ++ r := by
  intro needle hay
  induction hay with
  | nil =>
      rw [containsSub, List.isEmpty_iff]
      constructor
      · rintro rfl
        exact ⟨[], [], rfl⟩
      · rintro ⟨l, r, h⟩
        rcases List.append_eq_nil.mp h.symm with ⟨h1, -⟩
        exact (List.append_eq_nil.mp h1).2
  | cons c t ih =>
      rw [containsSub, Bool.or_eq_true, leadsWith_iff, ih]
      constructor
      · rintro (⟨r, hr⟩ | ⟨l, r, hlr⟩)
        · exact ⟨[], r, by simpa using hr⟩
        · exact ⟨c :: l, r, by simp [hlr]⟩
      · rintro ⟨l, r, hlr⟩
        cases l with
        | nil =>
            left
            exact ⟨r, by simpa using hlr⟩
        | cons x xs =>
            right
            rw [List.cons_append, List.cons_append] at hlr
            injection hlr with h1 h2
            exact ⟨xs, r, h2⟩

/-- C10: the report's exclusion test is the substring test: a channel is
excluded exactly when its short-channel-id occurs as a contiguous
substring of the `exclude` string; with the default `exclude = ""` only
an empty short-channel-id would be excluded (real ids never are); and the
number of reported channels is the count of active channels passing this
test. -/
theorem exclusion_is_substring_test :
    (∀ ex s : String, excludedB ex s = true ↔
        ∃ l r : List Char, ex.toList = l ++ s.toList ++ r) ∧
      (∀ s : String, excludedB ("") s = true ↔ s = "") ∧
      ∀ (ex : String) (now : ℕ) (peers : List Peer) (ps : PState),
        (summary ex now peers ps).num_channels = numChannelsSpec ex peers := by
  refine ⟨?_, ?_, ?_⟩
  · intro ex s
    exact containsSub_iff s.toList ex.toList
  · intro s
    show s.toList.isEmpty = true ↔ s = ""
    rw [List.isEmpty_iff]
    constructor
    · intro h
      cases s with
      | mk data =>
          cases h
          rfl
    · rintro rfl
      rfl
  · intro ex now peers ps
    rw [summary_eq]
    exact totalContrib_num_channels ex now peers ps

end SummaryPlugin
